import Mathlib

/-!
Verification of the `normalized-hasher` repository.

The development shallowly embeds the two Rust source files:

* `crates/normalized-hash/src/lib.rs` — the library: `Hasher` (configuration
  `eol`, `ignore_whitespaces`, `no_eof`) and `Hasher::hash_file`, which reads
  the input line by line via `BufRead::lines()`, optionally strips whitespace,
  joins lines with `eol` (prepended to every line but the first), feeds the
  resulting bytes to a SHA-256 accumulator, mirrors the same bytes to an
  optional output file, appends one final `eol` unless `no_eof`, and returns
  the lowercase hex digest.
* `src/main.rs` — the binary: a standalone `hash_file` that appends `"\n"`
  after every line unconditionally.

Text is modelled as `List Char` (the Rust code reads valid UTF-8 lines and
hashes their UTF-8 bytes); `utf8Encode` converts to the hashed byte sequence.
SHA-256 is implemented executably on `List Nat` so that concrete digests can
be evaluated by `decide`.
-/

/-- Unicode `White_Space` test, mirroring Rust's `char::is_whitespace`
(used by `line.replace(|c: char| c.is_whitespace(), "")`). -/
def rustIsWhitespace (c : Char) : Bool :=
  let n := c.toNat
  decide ((0x09 ≤ n ∧ n ≤ 0x0D) ∨ n = 0x20 ∨ n = 0x85 ∨ n = 0xA0 ∨ n = 0x1680 ∨
    (0x2000 ≤ n ∧ n ≤ 0x200A) ∨ n = 0x2028 ∨ n = 0x2029 ∨ n = 0x202F ∨ n = 0x3000 ∨
    n = 0x205F)

/-- The line splitter of Rust's `BufRead::lines()`, used by both
`Hasher::hash_file` and the binary's `hash_file`: lines are the maximal
chunks delimited by `'\n'`; a single `'\r'` immediately preceding a `'\n'`
is stripped from the line; a final chunk at end of input that is not
terminated by `'\n'` is returned as-is (in particular a `'\r'` not followed
by `'\n'` stays inside the line content); reading an empty input yields no
lines at all. -/
def rustLines : List Char → List (List Char)
  | [] => []
  | '\n' :: r => [] :: rustLines r
  | '\r' :: '\n' :: r => [] :: rustLines r
  | c :: r =>
    match rustLines r with
    | [] => [[c]]
    | l :: ls => (c :: l) :: ls

/-- The configuration struct `Hasher` of `crates/normalized-hash/src/lib.rs`
(field `eol : String` is modelled as `List Char`). -/
structure Hasher where
  eol : List Char
  ignore_whitespaces : Bool
  no_eof : Bool
deriving DecidableEq, Repr

/-- `Hasher::new()` / `Default::default()`: `eol = "\n"`,
`ignore_whitespaces = false`, `no_eof = false`. -/
def Hasher.new : Hasher :=
  { eol := ['\n'], ignore_whitespaces := false, no_eof := false }

/-- The per-line transformation of the loop body before the `eol` decision:
`line.replace(|c: char| c.is_whitespace(), "")` when `ignore_whitespaces`,
the line unchanged otherwise. -/
def cleanLine (cfg : Hasher) (line : List Char) : List Char :=
  if cfg.ignore_whitespaces then line.filter (fun c => !(rustIsWhitespace c)) else line

/-- State of one `hash_file` run: the characters fed to the SHA-256
accumulator so far (`hasher.update`), the characters written to the optional
output file so far (`file_out.write_all`), and the `is_first_line` flag. -/
structure RunState where
  hashed : List Char
  written : List Char
  is_first_line : Bool
deriving DecidableEq, Repr

/-- One iteration of the `for line in file_in.lines()` loop of
`Hasher::hash_file`: optionally strip whitespace, prepend `eol` unless this
is the first line, feed the result to the digest, mirror it to the output
when one was supplied, clear `is_first_line`. -/
def hashLineStep (cfg : Hasher) (writeOut : Bool) (st : RunState) (line : List Char) :
    RunState :=
  let line := cleanLine cfg line
  let line := if !st.is_first_line then cfg.eol ++ line else line
  { hashed := st.hashed ++ line
    written := if writeOut then st.written ++ line else st.written
    is_first_line := false }

/-- The whole loop of `Hasher::hash_file` plus the trailing-`eol` step:
fold `hashLineStep` over the lines of the input, then, unless `no_eof`,
feed one final `eol` to the digest and to the output. -/
def hash_file_run (cfg : Hasher) (writeOut : Bool) (input : List Char) : RunState :=
  let st := (rustLines input).foldl (hashLineStep cfg writeOut) ⟨[], [], true⟩
  if !cfg.no_eof then
    { st with
        hashed := st.hashed ++ cfg.eol
        written := if writeOut then st.written ++ cfg.eol else st.written }
  else st

/-- UTF-8 encoding of one character, as the list of its byte values (the Rust
code hashes and writes `line.as_bytes()`, the UTF-8 bytes of the line). -/
def utf8Bytes (c : Char) : List Nat :=
  let n := c.toNat
  if n < 0x80 then [n]
  else if n < 0x800 then
    [0xC0 ||| (n >>> 6), 0x80 ||| (n &&& 0x3F)]
  else if n < 0x10000 then
    [0xE0 ||| (n >>> 12), 0x80 ||| ((n >>> 6) &&& 0x3F), 0x80 ||| (n &&& 0x3F)]
  else
    [0xF0 ||| (n >>> 18), 0x80 ||| ((n >>> 12) &&& 0x3F),
     0x80 ||| ((n >>> 6) &&& 0x3F), 0x80 ||| (n &&& 0x3F)]

/-- UTF-8 encoding of a character sequence as a byte sequence. -/
def utf8Encode (s : List Char) : List Nat :=
  (s.map utf8Bytes).flatten

/-- Truncation to a 32-bit word. -/
def w32 (n : Nat) : Nat := n % 4294967296

/-- 32-bit right rotation. -/
def rotr32 (k x : Nat) : Nat := w32 ((x >>> k) ||| (x <<< (32 - k)))

/-- SHA-256 `Ch` function. -/
def shaCh (x y z : Nat) : Nat := (x &&& y) ^^^ ((x ^^^ 0xFFFFFFFF) &&& z)

/-- SHA-256 `Maj` function. -/
def shaMaj (x y z : Nat) : Nat := (x &&& y) ^^^ (x &&& z) ^^^ (y &&& z)

/-- SHA-256 big Σ₀. -/
def bigSigma0 (x : Nat) : Nat := rotr32 2 x ^^^ rotr32 13 x ^^^ rotr32 22 x

/-- SHA-256 big Σ₁. -/
def bigSigma1 (x : Nat) : Nat := rotr32 6 x ^^^ rotr32 11 x ^^^ rotr32 25 x

/-- SHA-256 small σ₀. -/
def smallSigma0 (x : Nat) : Nat := rotr32 7 x ^^^ rotr32 18 x ^^^ (x >>> 3)

/-- SHA-256 small σ₁. -/
def smallSigma1 (x : Nat) : Nat := rotr32 17 x ^^^ rotr32 19 x ^^^ (x >>> 10)

/-- The 64 SHA-256 round constants (FIPS 180-4, written in decimal). -/
def K256 : List Nat :=
  [1116352408, 1899447441, 3049323471, 3921009573, 961987163,
   1508970993, 2453635748, 2870763221, 3624381080, 310598401,
   607225278, 1426881987, 1925078388, 2162078206, 2614888103,
   3248222580, 3835390401, 4022224774, 264347078, 604807628,
   770255983, 1249150122, 1555081692, 1996064986, 2554220882,
   2821834349, 2952996808, 3210313671, 3336571891, 3584528711,
   113926993, 338241895, 666307205, 773529912, 1294757372,
   1396182291, 1695183700, 1986661051, 2177026350, 2456956037,
   2730485921, 2820302411, 3259730800, 3345764771, 3516065817,
   3600352804, 4094571909, 275423344, 430227734, 506948616,
   659060556, 883997877, 958139571, 1322822218, 1537002063,
   1747873779, 1955562222, 2024104815, 2227730452, 2361852424,
   2428436474, 2756734187, 3204031479, 3329325298]

/-- The SHA-256 initial hash value (FIPS 180-4, written in decimal). -/
def H256start : List Nat :=
  [1779033703, 3144134277, 1013904242,
   2773480762, 1359893119, 2600822924,
   528734635, 1541459225]

/-- SHA-256 message padding: append `0x80`, zero bytes until the length is
56 mod 64, then the bit length as an 8-byte big-endian integer. -/
def sha256pad (msg : List Nat) : List Nat :=
  let len := msg.length
  let z := (119 - len % 64) % 64
  let bl := 8 * len
  msg ++ [0x80] ++ List.replicate z 0 ++
    [(bl >>> 56) &&& 0xFF, (bl >>> 48) &&& 0xFF, (bl >>> 40) &&& 0xFF,
     (bl >>> 32) &&& 0xFF, (bl >>> 24) &&& 0xFF, (bl >>> 16) &&& 0xFF,
     (bl >>> 8) &&& 0xFF, bl &&& 0xFF]

/-- Split a byte sequence into 64-byte chunks; the `fuel` argument (one unit
per input byte suffices) makes the recursion structural. -/
def chunks64go : Nat → List Nat → List (List Nat)
  | _, [] => []
  | 0, l => [l]
  | fuel + 1, b :: r => ((b :: r).take 64) :: chunks64go fuel ((b :: r).drop 64)

/-- Split a byte sequence into 64-byte chunks. -/
def chunks64 (l : List Nat) : List (List Nat) := chunks64go l.length l

/-- Combine bytes into 32-bit big-endian words. -/
def beWords : List Nat → List Nat
  | b0 :: b1 :: b2 :: b3 :: r =>
    (((b0 * 256 + b1) * 256 + b2) * 256 + b3) :: beWords r
  | _ => []

/-- Extend the 16 message-schedule words by `k` further words. -/
def extendW : Nat → List Nat → List Nat
  | 0, w => w
  | k + 1, w =>
    let i := w.length
    let nw := w32 (smallSigma1 (w.getD (i - 2) 0) + w.getD (i - 7) 0 +
      smallSigma0 (w.getD (i - 15) 0) + w.getD (i - 16) 0)
    extendW k (w ++ [nw])

/-- The 64 SHA-256 compression rounds, driven by the zipped list of round
constants and schedule words. -/
def shaRounds : List Nat → List Nat →
    Nat × Nat × Nat × Nat × Nat × Nat × Nat × Nat →
    Nat × Nat × Nat × Nat × Nat × Nat × Nat × Nat
  | kc :: ks, wc :: ws, (a, b, c, d, e, f, g, h) =>
    let t1 := w32 (h + bigSigma1 e + shaCh e f g + kc + wc)
    let t2 := w32 (bigSigma0 a + shaMaj a b c)
    shaRounds ks ws (w32 (t1 + t2), a, b, c, w32 (d + t1), e, f, g)
  | _, _, st => st

/-- Process one 64-byte chunk of a SHA-256 message. -/
def sha256chunk (hs : List Nat) (chunk : List Nat) : List Nat :=
  let w := extendW 48 (beWords chunk)
  match shaRounds K256 w
      (hs.getD 0 0, hs.getD 1 0, hs.getD 2 0, hs.getD 3 0,
       hs.getD 4 0, hs.getD 5 0, hs.getD 6 0, hs.getD 7 0) with
  | (a, b, c, d, e, f, g, h) =>
    [w32 (hs.getD 0 0 + a), w32 (hs.getD 1 0 + b), w32 (hs.getD 2 0 + c),
     w32 (hs.getD 3 0 + d), w32 (hs.getD 4 0 + e), w32 (hs.getD 5 0 + f),
     w32 (hs.getD 6 0 + g), w32 (hs.getD 7 0 + h)]

/-- SHA-256 of a byte sequence, as the list of the 8 final 32-bit words. -/
def sha256 (msg : List Nat) : List Nat :=
  (chunks64 (sha256pad msg)).foldl sha256chunk H256start

/-- Lowercase hexadecimal digit for a value below 16. -/
def hexDigit (n : Nat) : Char :=
  if n < 10 then Char.ofNat (48 + n) else Char.ofNat (87 + n)

/-- Lowercase hexadecimal rendering of one 32-bit word, 8 digits. -/
def wordHex (n : Nat) : List Char :=
  [hexDigit ((n >>> 28) &&& 0xF), hexDigit ((n >>> 24) &&& 0xF),
   hexDigit ((n >>> 20) &&& 0xF), hexDigit ((n >>> 16) &&& 0xF),
   hexDigit ((n >>> 12) &&& 0xF), hexDigit ((n >>> 8) &&& 0xF),
   hexDigit ((n >>> 4) &&& 0xF), hexDigit (n &&& 0xF)]

/-- `base16ct::lower::encode_string` applied to a SHA-256 digest: the
64-character lowercase hex string. -/
def sha256hex (msg : List Nat) : String :=
  String.mk ((sha256 msg).map wordHex).flatten

/-- `Hasher::hash_file`: the hex SHA-256 digest of the normalized stream.
`writeOut` records whether an output destination was supplied (it does not
affect the digest). -/
def Hasher.hash_file (cfg : Hasher) (writeOut : Bool) (input : List Char) : String :=
  sha256hex (utf8Encode (hash_file_run cfg writeOut input).hashed)

/-- The loop of the standalone `hash_file` in `src/main.rs`: every line gets
`"\n"` appended (`format!("{}\n", line)`) before being fed to the digest. -/
def mainProcessLines : List (List Char) → List Char
  | [] => []
  | l :: ls => (l ++ ['\n']) ++ mainProcessLines ls

/-- The standalone `hash_file` of the binary crate `src/main.rs`: hex SHA-256
digest of the lines of the input, each with `"\n"` appended. -/
def main_hash_file (input : List Char) : String :=
  sha256hex (utf8Encode (mainProcessLines (rustLines input)))

/-- The externally visible file-system actions of `Hasher::hash_file`, in
program order. -/
inductive FsEvent where
  | openInput
  | createOutput
deriving DecidableEq, Repr

/-- Effect trace of `Hasher::hash_file` as written in the source:
`File::open(file_in).unwrap()` runs first, and on failure
(`inputContent = none`) the `unwrap` panic aborts the call before
`File::create(file_out)` is reached; only on success is the output created
(when a destination was supplied) and the loop run. -/
def hash_file_io (cfg : Hasher) (inputContent : Option (List Char)) (wantsOutput : Bool) :
    List FsEvent × Option RunState :=
  match inputContent with
  | none => ([FsEvent.openInput], none)
  | some input =>
    ([FsEvent.openInput] ++ (if wantsOutput then [FsEvent.createOutput] else []),
     some (hash_file_run cfg wantsOutput input))

/-- The line-ending replacement named by the specification: every `"\r\n"`
and every remaining lone `'\r'` becomes `'\n'`. -/
def canonCR : List Char → List Char
  | [] => []
  | '\r' :: '\n' :: r => '\n' :: canonCR r
  | '\r' :: r => '\n' :: canonCR r
  | c :: r => c :: canonCR r

/-- Replacement of every `"\r\n"` by `"\n"`, leaving other characters (in
particular a `'\r'` not followed by `'\n'`) unchanged. -/
def replCRLF : List Char → List Char
  | [] => []
  | '\r' :: '\n' :: r => '\n' :: replCRLF r
  | c :: r => c :: replCRLF r

/-- Inputs in which every `'\r'` is immediately followed by `'\n'` (no lone
carriage return). -/
def noLoneCR : List Char → Bool
  | [] => true
  | ['\r'] => false
  | '\r' :: c :: r => c == '\n' && noLoneCR (c :: r)
  | _ :: r => noLoneCR r

/-- Join a list of pieces with a separator placed exactly once between
consecutive pieces and never before the first piece. -/
def sepJoin (sep : List Char) : List (List Char) → List Char
  | [] => []
  | [l] => l
  | l :: ls => l ++ sep ++ sepJoin sep ls

/-- The contribution of one line to the normalized stream: cleaned line,
with `eol` prepended when it is not the first line. -/
def processLine (cfg : Hasher) (isFirst : Bool) (line : List Char) : List Char :=
  if !isFirst then cfg.eol ++ cleanLine cfg line else cleanLine cfg line

/-- The concatenated contributions of a list of lines, given whether the
first of them is the first line of the file. -/
def processLines (cfg : Hasher) : List (List Char) → Bool → List Char
  | [], _ => []
  | l :: ls, isFirst => processLine cfg isFirst l ++ processLines cfg ls false

theorem foldl_hashLineStep_hashed (cfg : Hasher) (w : Bool) :
    ∀ (ls : List (List Char)) (st : RunState),
      (ls.foldl (hashLineStep cfg w) st).hashed =
        st.hashed ++ processLines cfg ls st.is_first_line
  | [], st => by simp [processLines]
  | l :: ls, st => by
    rw [List.foldl_cons, foldl_hashLineStep_hashed cfg w ls]
    simp [hashLineStep, processLine, processLines, List.append_assoc]

theorem foldl_hashLineStep_written (cfg : Hasher) (w : Bool) :
    ∀ (ls : List (List Char)) (st : RunState),
      (ls.foldl (hashLineStep cfg w) st).written =
        st.written ++ (if w then processLines cfg ls st.is_first_line else [])
  | [], st => by simp [processLines]
  | l :: ls, st => by
    rw [List.foldl_cons, foldl_hashLineStep_written cfg w ls]
    cases w <;>
      simp [hashLineStep, processLine, processLines, List.append_assoc]

theorem hash_file_run_hashed (cfg : Hasher) (w : Bool) (input : List Char) :
    (hash_file_run cfg w input).hashed =
      processLines cfg (rustLines input) true ++ (if cfg.no_eof then [] else cfg.eol) := by
  unfold hash_file_run
  cases h : cfg.no_eof <;>
    simp [h, foldl_hashLineStep_hashed]

theorem hash_file_run_written (cfg : Hasher) (w : Bool) (input : List Char) :
    (hash_file_run cfg w input).written =
      if w then (hash_file_run cfg w input).hashed else [] := by
  unfold hash_file_run
  cases h : cfg.no_eof <;> cases w <;>
    simp [h, foldl_hashLineStep_hashed, foldl_hashLineStep_written]

theorem rustLines_cons_nl (r : List Char) : rustLines ('\n' :: r) = [] :: rustLines r := rfl

theorem rustLines_cons_crnl (r : List Char) :
    rustLines ('\r' :: '\n' :: r) = [] :: rustLines r := rfl

theorem rustLines_cons_other (c : Char) (r : List Char) (hn : c ≠ '\n')
    (hr : ¬(c = '\r' ∧ r.head? = some '\n')) :
    rustLines (c :: r) = match rustLines r with
      | [] => [[c]]
      | l :: ls => (c :: l) :: ls := by
  rw [rustLines.eq_def]
  split
  · simp_all
  · simp_all
  · rename_i r' heq
    rw [List.cons_eq_cons] at heq
    exact absurd ⟨heq.1, by rw [heq.2]; rfl⟩ hr
  · rename_i c' r' h1 h2 heq
    rw [List.cons_eq_cons] at heq
    rw [heq.1, heq.2]

theorem noLoneCR_cons_other (c : Char) (r : List Char) (hr : c ≠ '\r') :
    noLoneCR (c :: r) = noLoneCR r := by
  rw [noLoneCR.eq_def]
  split
  · simp_all
  · simp_all
  · simp_all
  · rename_i c' r' h1 h2 heq
    rw [List.cons_eq_cons] at heq
    rw [heq.2]

theorem replCRLF_cons_crnl (r : List Char) :
    replCRLF ('\r' :: '\n' :: r) = '\n' :: replCRLF r := rfl

theorem replCRLF_cons_other (c : Char) (r : List Char)
    (hr : ¬(c = '\r' ∧ r.head? = some '\n')) :
    replCRLF (c :: r) = c :: replCRLF r := by
  rw [replCRLF.eq_def]
  split
  · simp_all
  · rename_i r' heq
    rw [List.cons_eq_cons] at heq
    exact absurd ⟨heq.1, by rw [heq.2]; rfl⟩ hr
  · rename_i c' r' h1 heq
    rw [List.cons_eq_cons] at heq
    rw [heq.1, heq.2]

theorem rustLines_ne_nil (s : List Char) (hs : s ≠ []) : rustLines s ≠ [] := by
  rw [rustLines.eq_def]
  split
  · exact absurd rfl hs
  · simp
  · simp
  · split <;> simp

theorem rustLines_replCRLF (s : List Char) (h : noLoneCR s = true) :
    rustLines (replCRLF s) = rustLines s := by
  induction s using replCRLF.induct with
  | case1 => rfl
  | case2 r ih =>
    have h1 : (('\n' : Char) == '\n' && noLoneCR ('\n' :: r)) = true := h
    have h2 : noLoneCR r = true := by
      rw [noLoneCR_cons_other '\n' r (by decide)] at h1
      simpa using h1
    rw [replCRLF_cons_crnl, rustLines_cons_nl, rustLines_cons_crnl, ih h2]
  | case3 c r hside ih =>
    have hc' : c ≠ '\r' := by
      intro hc
      subst hc
      rcases r with _ | ⟨c2, r2⟩
      · exact absurd h (by decide)
      · have hc2 : c2 ≠ '\n' := fun hh => hside r2 rfl (by rw [hh])
        have he : noLoneCR ('\r' :: c2 :: r2) = (c2 == '\n' && noLoneCR (c2 :: r2)) := rfl
        rw [he] at h
        simp [hc2] at h
    have hcr : ¬(c = '\r' ∧ r.head? = some '\n') := fun hx => hc' hx.1
    have h' : noLoneCR r = true := by rwa [noLoneCR_cons_other c r hc'] at h
    rw [replCRLF_cons_other c r hcr]
    by_cases hn : c = '\n'
    · subst hn
      rw [rustLines_cons_nl, rustLines_cons_nl, ih h']
    · rw [rustLines_cons_other c (replCRLF r) hn (fun hx => hc' hx.1),
        rustLines_cons_other c r hn (fun hx => hc' hx.1), ih h']

theorem rustLines_append_term (t : List Char) (ht : rustLines t = [[]]) :
    ∀ (s : List Char), s ≠ [] →
      s.getLast? ≠ some '\n' → s.getLast? ≠ some '\r' →
      rustLines (s ++ t) = rustLines s
  | [], hs, _, _ => absurd rfl hs
  | [c], _, h1, h2 => by
    have hn : c ≠ '\n' := by simpa using h1
    have hr : c ≠ '\r' := by simpa using h2
    rw [show ([c] ++ t) = c :: t from rfl,
      rustLines_cons_other c t hn (fun hx => hr hx.1), ht,
      rustLines_cons_other c [] hn (by simp)]
    rfl
  | c1 :: c2 :: s', _, h1, h2 => by
    have h1' : (c2 :: s').getLast? ≠ some '\n' := by
      rwa [List.getLast?_cons_cons] at h1
    have h2' : (c2 :: s').getLast? ≠ some '\r' := by
      rwa [List.getLast?_cons_cons] at h2
    have ih := rustLines_append_term t ht (c2 :: s') (by simp) h1' h2'
    by_cases hn : c1 = '\n'
    · subst hn
      rw [show (('\n' :: c2 :: s') ++ t) = '\n' :: ((c2 :: s') ++ t) from rfl,
        rustLines_cons_nl, rustLines_cons_nl, ih]
    · by_cases hcr : c1 = '\r' ∧ c2 = '\n'
      · obtain ⟨h3, h4⟩ := hcr
        subst h3
        subst h4
        rw [show (('\r' :: '\n' :: s') ++ t) = '\r' :: '\n' :: (s' ++ t) from rfl,
          rustLines_cons_crnl, rustLines_cons_crnl]
        rcases s' with _ | ⟨c3, s''⟩
        · simp at h1
        · have ih2 := rustLines_append_term t ht (c3 :: s'') (by simp)
            (by rwa [List.getLast?_cons_cons] at h1')
            (by rwa [List.getLast?_cons_cons] at h2')
          rw [ih2]
      · have hcr1 : ¬(c1 = '\r' ∧ ((c2 :: s') ++ t).head? = some '\n') := by
          rintro ⟨ha, hb⟩
          simp at hb
          exact hcr ⟨ha, hb⟩
        have hcr2 : ¬(c1 = '\r' ∧ (c2 :: s').head? = some '\n') := by
          rintro ⟨ha, hb⟩
          simp at hb
          exact hcr ⟨ha, hb⟩
        rw [show ((c1 :: c2 :: s') ++ t) = c1 :: ((c2 :: s') ++ t) from rfl,
          rustLines_cons_other c1 _ hn hcr1, rustLines_cons_other c1 _ hn hcr2, ih]

theorem processLines_cons_false (cfg : Hasher) (l : List Char) (ls : List (List Char)) :
    processLines cfg (l :: ls) false = cfg.eol ++ processLines cfg (l :: ls) true := by
  simp [processLines, processLine, List.append_assoc]

theorem processLines_true_sepJoin (cfg : Hasher) :
    ∀ ls : List (List Char),
      processLines cfg ls true = sepJoin cfg.eol (ls.map (cleanLine cfg))
  | [] => rfl
  | [l] => by simp [processLines, processLine, sepJoin]
  | l :: l2 :: ls => by
    have ih := processLines_true_sepJoin cfg (l2 :: ls)
    rw [show processLines cfg (l :: l2 :: ls) true
        = processLine cfg true l ++ processLines cfg (l2 :: ls) false from rfl,
      processLines_cons_false, ih]
    simp [sepJoin, processLine, List.append_assoc]

theorem mainProcessLines_eq_default (ls : List (List Char)) (hls : ls ≠ []) :
    mainProcessLines ls = processLines Hasher.new ls true ++ ['\n'] := by
  have aux : ∀ ms : List (List Char),
      processLines Hasher.new ms false ++ ['\n'] = '\n' :: mainProcessLines ms := by
    intro ms
    induction ms with
    | nil => rfl
    | cons m ms ihm =>
      rw [show processLines Hasher.new (m :: ms) false
          = (Hasher.new.eol ++ cleanLine Hasher.new m) ++ processLines Hasher.new ms false from rfl,
        show cleanLine Hasher.new m = m from rfl,
        show Hasher.new.eol = ['\n'] from rfl,
        show mainProcessLines (m :: ms) = (m ++ ['\n']) ++ mainProcessLines ms from rfl,
        List.append_assoc, ihm]
      simp
  rcases ls with _ | ⟨l, ls⟩
  · exact absurd rfl hls
  · rw [show processLines Hasher.new (l :: ls) true
        = cleanLine Hasher.new l ++ processLines Hasher.new ls false from rfl,
      show cleanLine Hasher.new l = l from rfl,
      show mainProcessLines (l :: ls) = (l ++ ['\n']) ++ mainProcessLines ls from rfl,
      List.append_assoc, List.append_assoc, aux ls]
    simp

theorem mem_processLines_ws (cfg : Hasher) (hiw : cfg.ignore_whitespaces = true) :
    ∀ (ls : List (List Char)) (b : Bool) (c : Char),
      c ∈ processLines cfg ls b → rustIsWhitespace c = true → c ∈ cfg.eol
  | [], b, c, hmem, _ => by simp [processLines] at hmem
  | l :: ls, b, c, hmem, hws => by
    rw [show processLines cfg (l :: ls) b
        = processLine cfg b l ++ processLines cfg ls false from rfl] at hmem
    rcases List.mem_append.mp hmem with h | h
    · cases b <;>
        simp [processLine, cleanLine, hiw, List.mem_filter] at h
      · rcases h with h | h
        · exact h
        · rw [h.2] at hws
          simp at hws
      · rw [h.2] at hws
        simp at hws
    · exact mem_processLines_ws cfg hiw ls false c h hws

set_option maxRecDepth 100000

theorem run_eq_of_rustLines_eq (cfg : Hasher) (w : Bool) (i1 i2 : List Char)
    (h : rustLines i1 = rustLines i2) :
    hash_file_run cfg w i1 = hash_file_run cfg w i2 := by
  unfold hash_file_run
  rw [h]

theorem hash_file_eq_of_run_eq (cfg : Hasher) (w : Bool) (i1 i2 : List Char)
    (h : (hash_file_run cfg w i1).hashed = (hash_file_run cfg w i2).hashed) :
    cfg.hash_file w i1 = cfg.hash_file w i2 := by
  unfold Hasher.hash_file
  rw [h]

theorem hashed_append_term (cfg : Hasher) (w : Bool) (t input : List Char)
    (ht : rustLines t = [[]])
    (h1 : input.getLast? ≠ some '\n') (h2 : input.getLast? ≠ some '\r') :
    (hash_file_run cfg w (input ++ t)).hashed = (hash_file_run cfg w input).hashed ∧
    (hash_file_run cfg w (input ++ t)).written = (hash_file_run cfg w input).written := by
  rcases eq_or_ne input [] with rfl | hne
  · rw [List.nil_append]
    have hh : (hash_file_run cfg w t).hashed = (hash_file_run cfg w []).hashed := by
      rw [hash_file_run_hashed, hash_file_run_hashed, ht,
        show rustLines ([] : List Char) = [] from rfl]
      simp [processLines, processLine, cleanLine]
    refine ⟨hh, ?_⟩
    rw [hash_file_run_written, hash_file_run_written, hh]
  · have e := rustLines_append_term t ht input hne h1 h2
    have he := run_eq_of_rustLines_eq cfg w (input ++ t) input e
    exact ⟨by rw [he], by rw [he]⟩

/-- The input `"A B\r\nC D\r\n"` of the specification's concrete cases. -/
def sampleCRLF : List Char := ['A', ' ', 'B', '\r', '\n', 'C', ' ', 'D', '\r', '\n']

/-- The input `"A B\nC D\n"` of the specification's concrete cases. -/
def sampleLF : List Char := ['A', ' ', 'B', '\n', 'C', ' ', 'D', '\n']

/-- The input `"ABCD"` of the whitespace-ignoring concrete case. -/
def sampleABCD : List Char := ['A', 'B', 'C', 'D']

/-- The configuration `ignore_whitespaces = true`, `eol = ""`,
`no_eof = true` of the whitespace-ignoring concrete case. -/
def iwCfg : Hasher := { eol := [], ignore_whitespaces := true, no_eof := true }

/-- C1 counterexample: for the source `"a\rb"`, the spec's canonicalization
(replacing the lone `'\r'` with `'\n'`) changes both the digest and the
normalized stream under the default configuration, and `rustLines` keeps the
lone `'\r'` inside the line content rather than treating it as a
terminator. -/
theorem C1_counterexample :
    canonCR ['a', '\r', 'b'] = ['a', '\n', 'b'] ∧
    rustLines ['a', '\r', 'b'] = [['a', '\r', 'b']] ∧
    (hash_file_run Hasher.new true (canonCR ['a', '\r', 'b'])).hashed ≠
      (hash_file_run Hasher.new true ['a', '\r', 'b']).hashed ∧
    Hasher.new.hash_file true (canonCR ['a', '\r', 'b']) ≠
      Hasher.new.hash_file true ['a', '\r', 'b'] :=
  ⟨by decide, by decide, by decide, by decide⟩

/-- C1 (amended): for every configuration and every input in which each
`'\r'` is immediately followed by `'\n'`, replacing every `"\r\n"` with
`"\n"` leaves the whole run — digest and normalized output — unchanged. -/
theorem C1_theorem (cfg : Hasher) (w : Bool) (input : List Char)
    (h : noLoneCR input = true) :
    hash_file_run cfg w (replCRLF input) = hash_file_run cfg w input ∧
    cfg.hash_file w (replCRLF input) = cfg.hash_file w input := by
  have he := run_eq_of_rustLines_eq cfg w (replCRLF input) input
    (rustLines_replCRLF input h)
  exact ⟨he, by unfold Hasher.hash_file; rw [he]⟩

/-- Witness for C1 at the concrete input `"A B\r\nC D\r\n"`. -/
theorem C1_witness :
    noLoneCR sampleCRLF = true ∧
    (hash_file_run Hasher.new true (replCRLF sampleCRLF) =
        hash_file_run Hasher.new true sampleCRLF ∧
      Hasher.new.hash_file true (replCRLF sampleCRLF) =
        Hasher.new.hash_file true sampleCRLF) :=
  ⟨by decide, C1_theorem Hasher.new true sampleCRLF (by decide)⟩

/-- C2: for every configuration and input, when an output destination is
supplied the characters written to it are exactly the characters fed to the
SHA-256 accumulator, in content and order. -/
theorem C2_theorem (cfg : Hasher) (input : List Char) :
    (hash_file_run cfg true input).written = (hash_file_run cfg true input).hashed := by
  rw [hash_file_run_written]
  simp

/-- C3 counterexample: `'\r'` is one of the line terminators named by the
specification, yet appending it to the source `"a"` (equivalently: removing
the trailing `'\r'` terminator from `"a\r"`) changes both the digest and the
normalized stream under the default configuration. -/
theorem C3_counterexample :
    (hash_file_run Hasher.new true (['a'] ++ ['\r'])).hashed ≠
      (hash_file_run Hasher.new true ['a']).hashed ∧
    Hasher.new.hash_file true (['a'] ++ ['\r']) ≠ Hasher.new.hash_file true ['a'] :=
  ⟨by decide, by decide⟩

/-- C3 (amended): under the default configuration, appending one trailing
`"\n"` or `"\r\n"` terminator to a source that does not already end in
`'\n'` or `'\r'` — equivalently, removing the single trailing `"\n"` or
`"\r\n"` terminator of a source — changes neither the digest nor the
normalized output; a trailing lone `'\r'` is not covered, since the splitter
keeps it as line content. -/
theorem C3_theorem (input : List Char)
    (h1 : input.getLast? ≠ some '\n') (h2 : input.getLast? ≠ some '\r') :
    ((hash_file_run Hasher.new true (input ++ ['\n'])).hashed =
        (hash_file_run Hasher.new true input).hashed ∧
      (hash_file_run Hasher.new true (input ++ ['\n'])).written =
        (hash_file_run Hasher.new true input).written ∧
      Hasher.new.hash_file true (input ++ ['\n']) = Hasher.new.hash_file true input) ∧
    ((hash_file_run Hasher.new true (input ++ ['\r', '\n'])).hashed =
        (hash_file_run Hasher.new true input).hashed ∧
      (hash_file_run Hasher.new true (input ++ ['\r', '\n'])).written =
        (hash_file_run Hasher.new true input).written ∧
      Hasher.new.hash_file true (input ++ ['\r', '\n']) = Hasher.new.hash_file true input) := by
  have a1 := hashed_append_term Hasher.new true ['\n'] input (by decide) h1 h2
  have a2 := hashed_append_term Hasher.new true ['\r', '\n'] input (by decide) h1 h2
  exact ⟨⟨a1.1, a1.2, hash_file_eq_of_run_eq _ _ _ _ a1.1⟩,
    ⟨a2.1, a2.2, hash_file_eq_of_run_eq _ _ _ _ a2.1⟩⟩

/-- Witness for C3 at the concrete input `"a"`. -/
theorem C3_witness :
    (['a'] : List Char).getLast? ≠ some '\n' ∧ (['a'] : List Char).getLast? ≠ some '\r' ∧
    (((hash_file_run Hasher.new true (['a'] ++ ['\n'])).hashed =
        (hash_file_run Hasher.new true ['a']).hashed ∧
      (hash_file_run Hasher.new true (['a'] ++ ['\n'])).written =
        (hash_file_run Hasher.new true ['a']).written ∧
      Hasher.new.hash_file true (['a'] ++ ['\n']) = Hasher.new.hash_file true ['a']) ∧
    ((hash_file_run Hasher.new true (['a'] ++ ['\r', '\n'])).hashed =
        (hash_file_run Hasher.new true ['a']).hashed ∧
      (hash_file_run Hasher.new true (['a'] ++ ['\r', '\n'])).written =
        (hash_file_run Hasher.new true ['a']).written ∧
      Hasher.new.hash_file true (['a'] ++ ['\r', '\n']) = Hasher.new.hash_file true ['a'])) :=
  ⟨by decide, by decide, C3_theorem ['a'] (by decide) (by decide)⟩

/-- C4: on the empty input with `no_eof = false`, the default `eol = "\n"`
feeds exactly the single byte `'\n'` to the digest, giving the well-known
digest of one line feed; with `eol = ""` nothing is fed, giving the digest
of the empty byte string. -/
theorem C4_theorem :
    (hash_file_run Hasher.new true []).hashed = ['\n'] ∧
    utf8Encode (hash_file_run Hasher.new true []).hashed = [10] ∧
    Hasher.new.hash_file true [] =
      "01ba4719c80b6fe911b091a7c05124b64eeece964e09c058ef8f9805daca546b" ∧
    (hash_file_run { Hasher.new with eol := [] } true []).hashed = [] ∧
    { Hasher.new with eol := [] }.hash_file true [] =
      "e3b0c44298fc1c149afbf4c8996fb92427ae41e4649b934ca495991b7852b855" :=
  ⟨by decide, by decide, by decide, by decide, by decide⟩

/-- C5: the inputs `"A B\r\nC D\r\n"` and `"A B\nC D\n"` produce the same
digest under the default configuration, and both write the normalized
output `"A B\nC D\n"`. -/
theorem C5_theorem :
    Hasher.new.hash_file true sampleCRLF = Hasher.new.hash_file true sampleLF ∧
    (hash_file_run Hasher.new true sampleCRLF).written = sampleLF ∧
    (hash_file_run Hasher.new true sampleLF).written = sampleLF :=
  ⟨by decide, by decide, by decide⟩

/-- C6: for every configuration and input, the normalized stream is the
cleaned lines joined with `eol` placed exactly once between consecutive
lines and never before the first one, followed by the trailing `eol` unless
`no_eof`. -/
theorem C6_theorem (cfg : Hasher) (w : Bool) (input : List Char) :
    (hash_file_run cfg w input).hashed =
      sepJoin cfg.eol ((rustLines input).map (cleanLine cfg)) ++
        (if cfg.no_eof then [] else cfg.eol) := by
  rw [hash_file_run_hashed, processLines_true_sepJoin]

/-- The input `"A\t B\nCD\n"` for the whitespace-invariance witness. -/
def wsSampleA : List Char := ['A', '\t', ' ', 'B', '\n', 'C', 'D', '\n']

/-- The input `"AB\n C D \n"` for the whitespace-invariance witness. -/
def wsSampleB : List Char := ['A', 'B', '\n', ' ', 'C', ' ', 'D', ' ', '\n']

/-- C7: with `ignore_whitespaces` set, (i) two inputs whose lines agree
after removing all whitespace characters produce the same normalized stream
and digest, (ii) every whitespace character surviving in the stream comes
from the configured `eol`, and (iii) the concrete case: `"A B\r\nC D\r\n"`
with `ignore_whitespaces = true`, `eol = ""`, `no_eof = true` hashes like
`"ABCD"`. -/
theorem C7_theorem :
    (∀ (cfg : Hasher) (i1 i2 : List Char), cfg.ignore_whitespaces = true →
        (rustLines i1).map (cleanLine cfg) = (rustLines i2).map (cleanLine cfg) →
        (hash_file_run cfg true i1).hashed = (hash_file_run cfg true i2).hashed ∧
          cfg.hash_file true i1 = cfg.hash_file true i2) ∧
    (∀ (cfg : Hasher) (input : List Char) (c : Char), cfg.ignore_whitespaces = true →
        c ∈ (hash_file_run cfg true input).hashed → rustIsWhitespace c = true →
        c ∈ cfg.eol) ∧
    iwCfg.hash_file true sampleCRLF = iwCfg.hash_file true sampleABCD := by
  refine ⟨?_, ?_, by decide⟩
  · intro cfg i1 i2 _ hmap
    have hh : (hash_file_run cfg true i1).hashed = (hash_file_run cfg true i2).hashed := by
      rw [hash_file_run_hashed, hash_file_run_hashed,
        processLines_true_sepJoin, processLines_true_sepJoin, hmap]
    exact ⟨hh, hash_file_eq_of_run_eq _ _ _ _ hh⟩
  · intro cfg input c hiw hmem hws
    rw [hash_file_run_hashed] at hmem
    rcases List.mem_append.mp hmem with h | h
    · exact mem_processLines_ws cfg hiw (rustLines input) true c h hws
    · rcases hno : cfg.no_eof with _ | _ <;> rw [hno] at h
      · exact h
      · simp at h

/-- Witness for C7 at the concrete whitespace-differing inputs
`"A\t B\nCD\n"` and `"AB\n C D \n"`. -/
theorem C7_witness :
    ({ Hasher.new with ignore_whitespaces := true } : Hasher).ignore_whitespaces = true ∧
    (rustLines wsSampleA).map (cleanLine { Hasher.new with ignore_whitespaces := true }) =
      (rustLines wsSampleB).map (cleanLine { Hasher.new with ignore_whitespaces := true }) ∧
    ((hash_file_run { Hasher.new with ignore_whitespaces := true } true wsSampleA).hashed =
        (hash_file_run { Hasher.new with ignore_whitespaces := true } true wsSampleB).hashed ∧
      Hasher.hash_file { Hasher.new with ignore_whitespaces := true } true wsSampleA =
        Hasher.hash_file { Hasher.new with ignore_whitespaces := true } true wsSampleB) :=
  ⟨by decide, by decide,
    C7_theorem.1 { Hasher.new with ignore_whitespaces := true } wsSampleA wsSampleB
      (by decide) (by decide)⟩

/-- C9: for every input with at least one line, the binary's standalone
`hash_file` (which appends `"\n"` to every line) produces the same digest
as the library's `Hasher::hash_file` under the default configuration; on
the empty input the two differ (zero bytes vs one `'\n'` byte hashed). -/
theorem C9_theorem :
    (∀ input : List Char, rustLines input ≠ [] →
        main_hash_file input = Hasher.new.hash_file false input) ∧
    main_hash_file [] ≠ Hasher.new.hash_file false [] := by
  constructor
  · intro input hne
    unfold main_hash_file Hasher.hash_file
    rw [hash_file_run_hashed, mainProcessLines_eq_default (rustLines input) hne]
    rfl
  · decide

/-- Witness for C9 at the concrete one-line input `"a"`. -/
theorem C9_witness :
    rustLines ['a'] ≠ [] ∧
    main_hash_file ['a'] = Hasher.new.hash_file false ['a'] :=
  ⟨by decide, C9_theorem.1 ['a'] (by decide)⟩

/-- C10: when opening the input fails, `hash_file` performs no file-system
action beyond the attempted input open — in particular the output file is
never created or truncated — and no digest is produced; the input open is
the first action in every run. -/
theorem C10_theorem (cfg : Hasher) (wantsOutput : Bool) :
    (hash_file_io cfg none wantsOutput).1 = [FsEvent.openInput] ∧
    FsEvent.createOutput ∉ (hash_file_io cfg none wantsOutput).1 ∧
    (hash_file_io cfg none wantsOutput).2 = none ∧
    ∀ content : Option (List Char),
      (hash_file_io cfg content wantsOutput).1.head? = some FsEvent.openInput := by
  refine ⟨rfl, by simp [hash_file_io], rfl, ?_⟩
  intro content
  rcases content with _ | ⟨input⟩ <;> rfl
